import Mathlib

/-!
Shallow embedding of the LemLib virtual file system (src/src/vfs.cpp).

The on-disk index file is modelled as its list of text lines
(`List String`); every operation re-reads those lines through
`readFileIndex`, exactly as each C++ operation re-opens and re-parses
`/usd/index.txt`.  Mutating operations return the full new line list, so
the stream writes of the C++ code become explicit state passing.  The
backing sector files only matter through the platform paths the code
opens for them, so those paths are recorded in the result records.
-/

/-- Entry of the index file (vfs.cpp lines 59-64): a virtual file name
and the sector (as a decimal string) its contents live in. -/
structure lemlibFile where
  name : String
  sector : String
deriving Repr, DecidableEq

/-- Errors thrown by the VFS (vfs.cpp lines 24-28), without the message
formatting: each carries the path the C++ macro interpolates. -/
inductive VFSError where
  | VfsInitFailed : VFSError
  | FileNotFound : String → VFSError
  | FileAlreadyExists : String → VFSError
  | CannotOpenFile : String → VFSError
deriving Repr, DecidableEq

/-- Path correction used by every operation (for example vfs.cpp line
186): prepend a slash when the first character is not a slash. -/
def normalizePath (path : String) : String :=
  if path.toList.head? = some '/' then path else "/" ++ path

/-- Split a character list at its LAST slash: `some (before, after)`
when a slash occurs, `none` otherwise.  This is the denotation of
`line.find_last_of("/")` followed by the two `substr` calls. -/
def splitLastSlash : List Char → Option (List Char × List Char)
  | [] => none
  | c :: rest =>
    match splitLastSlash rest with
    | some (a, b) => some (c :: a, b)
    | none => if c = '/' then some ([], rest) else none

/-- Loop body of readFileIndex (vfs.cpp lines 92-96).  With no slash in
the line, `find_last_of` yields `npos`: `substr(0, npos)` is the whole
line and `substr(npos + 1) = substr(0)` is again the whole line. -/
def parseLine (line : String) : lemlibFile :=
  match splitLastSlash line.toList with
  | some (a, b) => ⟨⟨a⟩, ⟨b⟩⟩
  | none => ⟨line, line⟩

/-- readFileIndex (vfs.cpp lines 87-98): parse every line of the index
file, in file order. -/
def readFileIndex (file : List String) : List lemlibFile :=
  file.map parseLine

/-- fileExists (vfs.cpp lines 148-154). -/
def fileExists (path : String) (file : List String) : Bool :=
  let corrected_path := normalizePath path
  (readFileIndex file).any (fun f => f.name == corrected_path)

/-- getFileSector (vfs.cpp lines 106-115): sector of the first matching
entry, or the empty string when no entry matches. -/
def getFileSector (path : String) (file : List String) : String :=
  let corrected_path := normalizePath path
  match (readFileIndex file).find? (fun f => f.name == corrected_path) with
  | some f => f.sector
  | none => ""

/-- Per-entry name computation of listDirectory (vfs.cpp lines
132-134): drop the corrected directory from the front of the entry
name; when a slash remains and recursion is disabled, keep only the
part up to and including the first slash. -/
def stripCollapse (corrected_dir : String) (recursive : Bool) (n : String) : String :=
  let name : String := ⟨n.toList.drop corrected_dir.toList.length⟩
  match name.toList.findIdx? (fun c => c == '/') with
  | some i => if recursive then name else ⟨name.toList.take (i + 1)⟩
  | none => name

/-- The loop of listDirectory (vfs.cpp lines 128-137), with the
accumulated `files` vector made explicit.  The entry is considered when
`line.name.find(corrected_dir) == 0`, i.e. exactly when the corrected
directory is a string prefix of the entry name; the computed name is
appended unless already present. -/
def listDirLoop (corrected_dir : String) (recursive : Bool) :
    List lemlibFile → List String → List String
  | [], files => files
  | line :: rest, files =>
    if corrected_dir.toList.isPrefixOf line.name.toList then
      let name := stripCollapse corrected_dir recursive line.name
      listDirLoop corrected_dir recursive rest
        (if files.contains name then files else files ++ [name])
    else
      listDirLoop corrected_dir recursive rest files

/-- listDirectory (vfs.cpp lines 123-139). -/
def listDirectory (dir : String) (recursive : Bool) (file : List String) : List String :=
  let corrected_dir := normalizePath dir
  listDirLoop corrected_dir recursive (readFileIndex file) []

/-- Serialization of one index entry as written by deleteFile's rewrite
loop and createFile's append (vfs.cpp lines 175 and 202):
`name << "/" << sector`. -/
def serializeEntry (e : lemlibFile) : String :=
  e.name ++ "/" ++ e.sector

/-- Result of deleteFile: the error if one was thrown, the index file
contents after the call, and the platform path of the backing file the
call truncated to empty (if any). -/
structure DeleteResult where
  error : Option VFSError
  file : List String
  truncated : Option String
deriving Repr, DecidableEq

/-- deleteFile (vfs.cpp lines 161-176).  On a missing path it throws
before touching anything, so the index file is unchanged and nothing is
truncated.  Otherwise it opens an ofstream on `getFileSector(path)` —
the bare sector string itself is used as the platform path — writes ""
to it, and rewrites the whole index without the matching entries. -/
def deleteFile (path : String) (file : List String) : DeleteResult :=
  let corrected_path := normalizePath path
  if fileExists corrected_path file then
    { error := none
      file := ((readFileIndex file).filter
        (fun line => line.name != corrected_path)).map serializeEntry
      truncated := some (getFileSector corrected_path file) }
  else
    { error := some (VFSError.FileNotFound corrected_path)
      file := file
      truncated := none }

/-- The sector scan of createFile (vfs.cpp lines 196-200): one pass
over the index, incrementing the candidate whenever the current entry's
sector equals the candidate's decimal string. -/
def allocateSector (index : List lemlibFile) : Nat :=
  index.foldl (fun sector f => if f.sector == toString sector then sector + 1 else sector) 0

/-- Result of createFile: the error if one was thrown, the sector
string returned on success, the index file contents after the call, the
platform path of the backing sector file created empty (if any), and
the path of the backing file truncated by an overwrite-delete. -/
structure CreateResult where
  error : Option VFSError
  sector : Option String
  file : List String
  created : Option String
  truncated : Option String
deriving Repr, DecidableEq

/-- createFile (vfs.cpp lines 184-211).  When the path exists it is
deleted first (overwrite) or FILE_ALREADY_EXISTS is thrown; the sector
scan then runs on the re-read, post-delete index; the new line is
appended; the backing sector file is created at `"/usd" + sector` (no
slash between, vfs.cpp line 205). -/
def createFile (path : String) (overwrite : Bool) (file : List String) : CreateResult :=
  let corrected_path := normalizePath path
  if fileExists corrected_path file then
    if overwrite then
      let d := deleteFile corrected_path file
      let index := readFileIndex d.file
      let sector := allocateSector index
      { error := none
        sector := some (toString sector)
        file := d.file ++ [corrected_path ++ "/" ++ toString sector]
        created := some ("/usd" ++ toString sector)
        truncated := d.truncated }
    else
      { error := some (VFSError.FileAlreadyExists corrected_path)
        sector := none, file := file, created := none, truncated := none }
  else
    let index := readFileIndex file
    let sector := allocateSector index
    { error := none
      sector := some (toString sector)
      file := file ++ [corrected_path ++ "/" ++ toString sector]
      created := some ("/usd" ++ toString sector)
      truncated := none }

/-- One public mutating operation of the VFS. -/
inductive VfsOp where
  | create : String → VfsOp
  | delete : String → VfsOp
deriving Repr, DecidableEq

/-- Apply one operation to the index file; `none` when the operation
throws (in which case the C++ code left the file in the state the
result record region carries — for a throw, unchanged). -/
def applyOp (file : List String) : VfsOp → Option (List String)
  | VfsOp.create p =>
    let r := createFile p true file
    match r.error with
    | none => some r.file
    | some _ => none
  | VfsOp.delete p =>
    let r := deleteFile p file
    match r.error with
    | none => some r.file
    | some _ => none

/-- Run a sequence of operations from a given index file, failing as
soon as one throws. -/
def runOps (ops : List VfsOp) (file : List String) : Option (List String) :=
  match ops with
  | [] => some file
  | op :: rest =>
    match applyOp file op with
    | some f2 => runOps rest f2
    | none => none

/-! Helper lemmas. -/

theorem toList_append (s t : String) : (s ++ t).toList = s.toList ++ t.toList :=
  String.data_append s t

theorem toList_normalizePath (p : String) :
    ∃ cs, (normalizePath p).toList = '/' :: cs := by
  unfold normalizePath
  by_cases h : p.toList.head? = some '/'
  · rw [if_pos h]
    cases hcl : p.toList with
    | nil => rw [hcl] at h; exact absurd h (by simp)
    | cons c cs =>
      rw [hcl] at h
      have hc : c = '/' := by simpa using h
      subst hc
      exact ⟨cs, rfl⟩
  · rw [if_neg h]
    refine ⟨p.toList, ?_⟩
    rw [toList_append]
    rfl

theorem normalizePath_of_head (q : String) (h : q.toList.head? = some '/') :
    normalizePath q = q := by
  unfold normalizePath
  rw [if_pos h]

theorem normalizePath_idem (p : String) :
    normalizePath (normalizePath p) = normalizePath p := by
  obtain ⟨cs, h⟩ := toList_normalizePath p
  exact normalizePath_of_head _ (by rw [h]; rfl)

theorem splitLastSlash_eq_none (cs : List Char) (h : '/' ∉ cs) :
    splitLastSlash cs = none := by
  induction cs with
  | nil => rfl
  | cons c rest ih =>
    have hc : ¬ c = '/' := fun hc => h (by simp [hc])
    have hr : splitLastSlash rest = none := ih (fun hm => h (List.mem_cons_of_mem _ hm))
    simp [splitLastSlash, hr, hc]

theorem splitLastSlash_none_no_slash (cs : List Char) (h : splitLastSlash cs = none) :
    '/' ∉ cs := by
  induction cs with
  | nil => simp
  | cons c rest ih =>
    simp only [splitLastSlash] at h
    cases hr : splitLastSlash rest with
    | some ab => rw [hr] at h; exact absurd h (by simp)
    | none =>
      rw [hr] at h
      by_cases hc : c = '/'
      · simp [hc] at h
      · intro hm
        rcases List.mem_cons.mp hm with h1 | h2
        · exact hc h1.symm
        · exact ih hr h2

theorem splitLastSlash_append (a b : List Char) (h : '/' ∉ b) :
    splitLastSlash (a ++ '/' :: b) = some (a, b) := by
  induction a with
  | nil => simp [splitLastSlash, splitLastSlash_eq_none b h]
  | cons c a' ih => simp [splitLastSlash, ih]

theorem splitLastSlash_no_slash_right (cs a b : List Char)
    (h : splitLastSlash cs = some (a, b)) : '/' ∉ b := by
  induction cs generalizing a b with
  | nil => exact absurd h (by simp [splitLastSlash])
  | cons c rest ih =>
    simp only [splitLastSlash] at h
    cases hr : splitLastSlash rest with
    | some ab =>
      rw [hr] at h
      obtain ⟨a', b'⟩ := ab
      injection h with h2
      have hb : b' = b := congrArg Prod.snd h2
      rw [← hb]
      exact ih a' b' hr
    | none =>
      rw [hr] at h
      by_cases hc : c = '/'
      · rw [if_pos hc] at h
        injection h with h2
        have hb : rest = b := congrArg Prod.snd h2
        rw [← hb]
        exact splitLastSlash_none_no_slash rest hr
      · rw [if_neg hc] at h
        exact absurd h (by simp)

theorem parseLine_sector_no_slash (line : String) :
    '/' ∉ (parseLine line).sector.toList := by
  unfold parseLine
  cases h : splitLastSlash line.toList with
  | some ab =>
    obtain ⟨a, b⟩ := ab
    exact splitLastSlash_no_slash_right _ a b h
  | none => exact splitLastSlash_none_no_slash _ h

theorem readFileIndex_sector_no_slash (file : List String) :
    ∀ e ∈ readFileIndex file, '/' ∉ e.sector.toList := by
  intro e he
  obtain ⟨l, _, rfl⟩ := List.mem_map.mp he
  exact parseLine_sector_no_slash l

theorem parseLine_serializeEntry (e : lemlibFile) (h : '/' ∉ e.sector.toList) :
    parseLine (serializeEntry e) = e := by
  unfold parseLine serializeEntry
  have hsplit : (e.name ++ "/" ++ e.sector).toList
      = e.name.toList ++ '/' :: e.sector.toList := by
    rw [toList_append, toList_append]
    simp
  rw [hsplit, splitLastSlash_append _ _ h]
  obtain ⟨⟨nm⟩, ⟨sec⟩⟩ := e
  rfl

theorem readFileIndex_map_serialize (l : List lemlibFile)
    (h : ∀ e ∈ l, '/' ∉ e.sector.toList) :
    readFileIndex (l.map serializeEntry) = l := by
  unfold readFileIndex
  rw [List.map_map]
  have hcong : ∀ e ∈ l, (parseLine ∘ serializeEntry) e = id e := fun e he =>
    parseLine_serializeEntry e (h e he)
  rw [List.map_congr_left hcong, List.map_id]

theorem digitChar_ne_slash (n : Nat) : Nat.digitChar n ≠ '/' := by
  by_cases h : n < 16
  · have hsmall : ∀ m : Fin 16, Nat.digitChar m.val ≠ '/' := by decide
    exact hsmall ⟨n, h⟩
  · have h0 : ¬ n = 0 := by omega
    have h1 : ¬ n = 1 := by omega
    have h2 : ¬ n = 2 := by omega
    have h3 : ¬ n = 3 := by omega
    have h4 : ¬ n = 4 := by omega
    have h5 : ¬ n = 5 := by omega
    have h6 : ¬ n = 6 := by omega
    have h7 : ¬ n = 7 := by omega
    have h8 : ¬ n = 8 := by omega
    have h9 : ¬ n = 9 := by omega
    have h10 : ¬ n = 10 := by omega
    have h11 : ¬ n = 11 := by omega
    have h12 : ¬ n = 12 := by omega
    have h13 : ¬ n = 13 := by omega
    have h14 : ¬ n = 14 := by omega
    have h15 : ¬ n = 15 := by omega
    unfold Nat.digitChar
    simp only [h0, h1, h2, h3, h4, h5, h6, h7, h8, h9, h10, h11, h12, h13,
      h14, h15, if_false, ite_false]
    decide

theorem toDigitsCore_no_slash :
    ∀ (fuel n : Nat) (acc : List Char), '/' ∉ acc →
      '/' ∉ Nat.toDigitsCore 10 fuel n acc := by
  intro fuel
  induction fuel with
  | zero => intro n acc h; simpa [Nat.toDigitsCore] using h
  | succ f ih =>
    intro n acc h
    have hd : '/' ∉ Nat.digitChar (n % 10) :: acc := by
      intro hm
      rcases List.mem_cons.mp hm with h1 | h2
      · exact digitChar_ne_slash (n % 10) h1.symm
      · exact h h2
    simp only [Nat.toDigitsCore]
    split
    · exact hd
    · exact ih (n / 10) _ hd

theorem toString_nat_no_slash (n : Nat) : '/' ∉ (toString n).toList := by
  show '/' ∉ Nat.toDigitsCore 10 (n + 1) n []
  exact toDigitsCore_no_slash (n + 1) n [] (by simp)

theorem fileExists_iff (path : String) (file : List String) :
    fileExists path file = true ↔
      ∃ e ∈ readFileIndex file, e.name = normalizePath path := by
  unfold fileExists
  simp [List.any_eq_true]

theorem fileExists_normalize (path : String) (file : List String) :
    fileExists (normalizePath path) file = fileExists path file := by
  unfold fileExists
  rw [normalizePath_idem]

theorem isPrefixOf_self (l : List Char) : l.isPrefixOf l = true := by
  induction l with
  | nil => rfl
  | cons c cs ih => simp [List.isPrefixOf, ih]

theorem stripCollapse_eq_empty (d : String) (r : Bool) : stripCollapse d r d = "" := by
  simp only [stripCollapse]
  rw [show List.drop d.toList.length d.toList = ([] : List Char) from List.drop_length _]
  rfl

theorem mem_listDirLoop (d : String) (r : Bool) :
    ∀ (l : List lemlibFile) (acc : List String) (x : String), x ∈ acc →
      x ∈ listDirLoop d r l acc := by
  intro l
  induction l with
  | nil => intro acc x hx; simpa [listDirLoop] using hx
  | cons line rest ih =>
    intro acc x hx
    simp only [listDirLoop]
    split
    · apply ih
      split
      · exact hx
      · exact List.mem_append_left _ hx
    · exact ih acc x hx

theorem stripCollapse_mem_listDirLoop (d : String) (r : Bool) :
    ∀ (l : List lemlibFile) (acc : List String) (e : lemlibFile), e ∈ l →
      d.toList.isPrefixOf e.name.toList = true →
      stripCollapse d r e.name ∈ listDirLoop d r l acc := by
  intro l
  induction l with
  | nil => intro acc e he _; exact absurd he (by simp)
  | cons line rest ih =>
    intro acc e he hp
    rcases List.mem_cons.mp he with h1 | h2
    · subst h1
      simp only [listDirLoop]
      rw [if_pos hp]
      apply mem_listDirLoop
      split
      · rename_i hc
        exact List.elem_iff.mp hc
      · exact List.mem_append_right _ (by simp)
    · simp only [listDirLoop]
      split
      · exact ih _ e h2 hp
      · exact ih acc e h2 hp

/-! Claim theorems. -/

/-- C1: the sector scan of createFile does NOT pick the smallest unused
sector on every index.  On the reachable index file ["/b/1", "/c/0"]
(create /a, create /b, delete /a, create /c) the scan returns 1 even
though sector 1 is in use and sector 2 is the smallest unused one:
the single pass only computes the minimum free sector when the sector
ids appear in increasing order. -/
theorem allocateSector_not_smallest_unused :
    runOps [VfsOp.create "/a", VfsOp.create "/b", VfsOp.delete "/a",
      VfsOp.create "/c"] [] = some ["/b/1", "/c/0"] ∧
    (createFile "/d" true ["/b/1", "/c/0"]).sector = some "1" ∧
    ((readFileIndex ["/b/1", "/c/0"]).map lemlibFile.sector).contains "1" = true ∧
    ((readFileIndex ["/b/1", "/c/0"]).map lemlibFile.sector).contains "0" = true ∧
    ((readFileIndex ["/b/1", "/c/0"]).map lemlibFile.sector).contains "2" = false := by
  decide

/-- C2: the sector-uniqueness invariant is violated by a reachable
state: after create /a, create /b, delete /a, create /c, create /d the
index holds two entries with sector id "1" (the path half of the
invariant still holds on this state). -/
theorem sector_uniqueness_violated :
    runOps [VfsOp.create "/a", VfsOp.create "/b", VfsOp.delete "/a",
      VfsOp.create "/c", VfsOp.create "/d"] [] = some ["/b/1", "/c/0", "/d/1"] ∧
    ¬ ((readFileIndex ["/b/1", "/c/0", "/d/1"]).map lemlibFile.sector).Nodup ∧
    ((readFileIndex ["/b/1", "/c/0", "/d/1"]).map lemlibFile.name).Nodup := by
  decide

/-- C3 counterexample: with exactly the paths /a/b.txt and /a/c/d.txt
in the index, listDirectory "/a" does NOT return ["b.txt", "c/"] (nor
["b.txt", "c/d.txt"] recursively): only the literal string "/a" is
stripped, so every remainder keeps its leading slash. -/
theorem listDirectory_example_refuted :
    readFileIndex ["/a/b.txt/0", "/a/c/d.txt/1"]
      = [⟨"/a/b.txt", "0"⟩, ⟨"/a/c/d.txt", "1"⟩] ∧
    listDirectory "/a" false ["/a/b.txt/0", "/a/c/d.txt/1"] ≠ ["b.txt", "c/"] ∧
    listDirectory "/a" true ["/a/b.txt/0", "/a/c/d.txt/1"] ≠ ["b.txt", "c/d.txt"] := by
  decide

/-- C3 amended: on that index, listDirectory "/a" returns ["/"]
non-recursively (both remainders "/b.txt" and "/c/d.txt" collapse to
their first segment plus a trailing slash, which is just "/") and
["/b.txt", "/c/d.txt"] recursively; the spec's expected output arises
for the directory argument "/a/": ["b.txt", "c/"] non-recursively and
["b.txt", "c/d.txt"] recursively. -/
theorem listDirectory_example_amended :
    listDirectory "/a" false ["/a/b.txt/0", "/a/c/d.txt/1"] = ["/"] ∧
    listDirectory "/a" true ["/a/b.txt/0", "/a/c/d.txt/1"] = ["/b.txt", "/c/d.txt"] ∧
    listDirectory "/a/" false ["/a/b.txt/0", "/a/c/d.txt/1"] = ["b.txt", "c/"] ∧
    listDirectory "/a/" true ["/a/b.txt/0", "/a/c/d.txt/1"] = ["b.txt", "c/d.txt"] := by
  decide

/-- C4: the backing sector file paths do not agree.  For the very first
created file (sector 0) createFile opens "/usd0" — the prefix is
concatenated without a slash — while the deleteFile that later frees
the same virtual file truncates the file named by the bare sector
string "0".  Neither equals "/usd/0" and they differ from each other,
so create and delete touch different platform files. -/
theorem sector_backing_paths_mismatch :
    (createFile "/a" true []).sector = some "0" ∧
    (createFile "/a" true []).file = ["/a/0"] ∧
    (createFile "/a" true []).created = some "/usd0" ∧
    (deleteFile "/a" ["/a/0"]).truncated = some "0" ∧
    ("/usd0" : String) ≠ "0" ∧
    ("/usd0" : String) ≠ "/usd/0" ∧
    ("0" : String) ≠ "/usd/0" := by
  decide

/-- C6: listDirectory's match is a raw string-prefix test with no
path-boundary check: every index entry whose name has the corrected
directory as a string prefix contributes its stripped (and, when
non-recursive, collapsed) remainder to the returned names. -/
theorem listDirectory_raw_string_match (dir : String) (recursive : Bool)
    (file : List String) (e : lemlibFile) (he : e ∈ readFileIndex file)
    (hp : (normalizePath dir).toList.isPrefixOf e.name.toList = true) :
    stripCollapse (normalizePath dir) recursive e.name
      ∈ listDirectory dir recursive file := by
  unfold listDirectory
  exact stripCollapse_mem_listDirLoop _ _ _ _ e he hp

/-- C6 witness: the entry for file /ab is matched by
listDirectory "/a" — "/a" is a string prefix of "/ab" although the
match does not end at a path boundary — and contributes the name "b". -/
theorem listDirectory_raw_string_match_witness :
    stripCollapse (normalizePath "/a") false "/ab"
      ∈ listDirectory "/a" false ["/ab/0"] :=
  listDirectory_raw_string_match "/a" false ["/ab/0"] ⟨"/ab", "0"⟩
    (by decide) (by decide)

/-- C10: an index entry whose name equals the corrected directory
itself makes listDirectory return the empty string among the names: the
stripped remainder is empty, contains no slash, and is appended
unchanged. -/
theorem listDirectory_exact_path_empty_name (dir : String) (recursive : Bool)
    (file : List String) (e : lemlibFile) (he : e ∈ readFileIndex file)
    (hn : e.name = normalizePath dir) :
    "" ∈ listDirectory dir recursive file := by
  have hp : (normalizePath dir).toList.isPrefixOf e.name.toList = true := by
    rw [hn]
    exact isPrefixOf_self _
  have hname : stripCollapse (normalizePath dir) recursive e.name = "" := by
    rw [hn]
    exact stripCollapse_eq_empty _ recursive
  have hmem := stripCollapse_mem_listDirLoop (normalizePath dir) recursive
    (readFileIndex file) [] e he hp
  rw [hname] at hmem
  unfold listDirectory
  exact hmem

/-- C10 witness: with an entry /a in the index, listDirectory "/a"
returns the empty string among the names. -/
theorem listDirectory_exact_path_empty_name_witness :
    "" ∈ listDirectory "/a" false ["/a/0"] :=
  listDirectory_exact_path_empty_name "/a" false ["/a/0"] ⟨"/a", "0"⟩
    (by decide) (by decide)

/-- C7: a successful deleteFile leaves the index holding exactly the
entries whose name differs from the normalized path, unchanged and in
their original relative order — re-reading the rewritten file parses
back precisely the filtered entry list. -/
theorem deleteFile_filters_index (path : String) (file : List String)
    (h : fileExists path file = true) :
    (deleteFile path file).error = none ∧
    readFileIndex ((deleteFile path file).file)
      = (readFileIndex file).filter (fun e => e.name != normalizePath path) := by
  have hc : fileExists (normalizePath path) file = true := by
    rw [fileExists_normalize]
    exact h
  simp only [deleteFile]
  rw [if_pos hc]
  refine ⟨rfl, ?_⟩
  apply readFileIndex_map_serialize
  intro e he
  exact readFileIndex_sector_no_slash file e (List.mem_filter.mp he).1

/-- C7 witness: deleting /a from the index file ["/a/0", "/b/1"]
succeeds and leaves exactly the entry for /b. -/
theorem deleteFile_filters_index_witness :
    (deleteFile "/a" ["/a/0", "/b/1"]).error = none ∧
    readFileIndex ((deleteFile "/a" ["/a/0", "/b/1"]).file)
      = (readFileIndex ["/a/0", "/b/1"]).filter
          (fun e => e.name != normalizePath "/a") :=
  deleteFile_filters_index "/a" ["/a/0", "/b/1"] (by decide)

/-- C8: deleteFile on a path absent from the index throws
FILE_NOT_FOUND carrying the normalized path, the index file is
unchanged, and no backing sector file is truncated. -/
theorem deleteFile_absent_unchanged (path : String) (file : List String)
    (h : fileExists path file = false) :
    deleteFile path file =
      { error := some (VFSError.FileNotFound (normalizePath path))
        file := file
        truncated := none } := by
  have hc : fileExists (normalizePath path) file = false := by
    rw [fileExists_normalize]
    exact h
  simp only [deleteFile]
  rw [if_neg (by simp [hc])]

/-- C8 witness: deleting the absent path "a" from the index file
["/b/1"] fails with FILE_NOT_FOUND ("/a") and changes nothing. -/
theorem deleteFile_absent_unchanged_witness :
    deleteFile "a" ["/b/1"] =
      { error := some (VFSError.FileNotFound (normalizePath "a"))
        file := ["/b/1"]
        truncated := none } :=
  deleteFile_absent_unchanged "a" ["/b/1"] (by decide)

/-- C9: getFileSector is a total lookup: whenever the index can be
parsed it either reports the empty-string sentinel (exactly when no
entry matches the normalized path) or the sector of a matching entry
(exactly when one exists). -/
theorem getFileSector_total_lookup (path : String) (file : List String) :
    (fileExists path file = false ∧ getFileSector path file = "") ∨
    (fileExists path file = true ∧ ∃ e ∈ readFileIndex file,
      e.name = normalizePath path ∧ getFileSector path file = e.sector) := by
  cases hf : (readFileIndex file).find? (fun f => f.name == normalizePath path) with
  | none =>
    left
    have hnone := List.find?_eq_none.mp hf
    constructor
    · simp only [fileExists, List.any_eq_false]
      intro x hx
      exact hnone x hx
    · simp only [getFileSector]
      rw [hf]
  | some f =>
    right
    have hmem := List.mem_of_find?_eq_some hf
    have hpred := List.find?_some hf
    have hname : f.name = normalizePath path := by simpa using hpred
    constructor
    · simp only [fileExists, List.any_eq_true]
      exact ⟨f, hmem, hpred⟩
    · refine ⟨f, hmem, hname, ?_⟩
      simp only [getFileSector]
      rw [hf]

/-- Main induction for the round-trip property: creating a list of
fresh, already-normalized paths succeeds and appends exactly those
paths (in order) to the names the index file parses to. -/
theorem runCreates_names : ∀ (ps : List String) (file : List String),
    (∀ p ∈ ps, normalizePath p = p) → ps.Nodup →
    (∀ p ∈ ps, ∀ e ∈ readFileIndex file, e.name ≠ p) →
    ∃ file2, runOps (ps.map VfsOp.create) file = some file2 ∧
      (readFileIndex file2).map lemlibFile.name
        = (readFileIndex file).map lemlibFile.name ++ ps := by
  intro ps
  induction ps with
  | nil => intro file _ _ _; exact ⟨file, rfl, by simp⟩
  | cons p rest ih =>
    intro file hnorm hnodup hfresh
    have hnp : normalizePath p = p := hnorm p (List.mem_cons_self p rest)
    have hex : fileExists p file = false := by
      cases hf : fileExists p file with
      | false => rfl
      | true =>
        obtain ⟨e, he, hn⟩ := (fileExists_iff p file).mp hf
        exact absurd (hn.trans hnp) (hfresh p (List.mem_cons_self p rest) e he)
    have hexn : fileExists (normalizePath p) file = false := by
      rw [fileExists_normalize]
      exact hex
    have hcf : createFile p true file =
        { error := none
          sector := some (toString (allocateSector (readFileIndex file)))
          file := file
            ++ [normalizePath p ++ "/" ++ toString (allocateSector (readFileIndex file))]
          created := some ("/usd" ++ toString (allocateSector (readFileIndex file)))
          truncated := none } := by
      simp only [createFile]
      rw [if_neg (by simp [hexn])]
    have hparse : parseLine
        (normalizePath p ++ "/" ++ toString (allocateSector (readFileIndex file)))
        = ⟨normalizePath p, toString (allocateSector (readFileIndex file))⟩ :=
      parseLine_serializeEntry
        ⟨normalizePath p, toString (allocateSector (readFileIndex file))⟩
        (toString_nat_no_slash _)
    have hidx2 : readFileIndex (file
          ++ [normalizePath p ++ "/" ++ toString (allocateSector (readFileIndex file))])
        = readFileIndex file ++ [⟨p, toString (allocateSector (readFileIndex file))⟩] := by
      simp only [readFileIndex, List.map_append, List.map_cons, List.map_nil]
      rw [show List.map parseLine file = readFileIndex file from rfl, hparse, hnp]
    have hfresh2 : ∀ q ∈ rest, ∀ e ∈ readFileIndex (file
          ++ [normalizePath p ++ "/" ++ toString (allocateSector (readFileIndex file))]),
        e.name ≠ q := by
      intro q hq e he
      rw [hidx2] at he
      rcases List.mem_append.mp he with h1 | h2
      · exact hfresh q (List.mem_cons_of_mem p hq) e h1
      · have he2 : e = ⟨p, toString (allocateSector (readFileIndex file))⟩ := by
          simpa using h2
        rw [he2]
        intro hpq
        have hpq' : p = q := hpq
        subst hpq'
        exact (List.nodup_cons.mp hnodup).1 hq
    obtain ⟨file3, hrun, hnames⟩ :=
      ih (file ++ [normalizePath p ++ "/" ++ toString (allocateSector (readFileIndex file))])
        (fun q hq => hnorm q (List.mem_cons_of_mem p hq))
        (List.nodup_cons.mp hnodup).2 hfresh2
    refine ⟨file3, ?_, ?_⟩
    · simp only [List.map_cons, runOps, applyOp]
      rw [hcf]
      exact hrun
    · rw [hnames, hidx2]
      simp

/-- C5: creating every path of a sequence of distinct, already
normalized paths from the empty index succeeds, and re-reading the
index yields exactly those paths, in order and without duplicates. -/
theorem createFile_round_trip (ps : List String)
    (h1 : ∀ p ∈ ps, normalizePath p = p) (h2 : ps.Nodup) :
    ∃ file, runOps (ps.map VfsOp.create) [] = some file ∧
      (readFileIndex file).map lemlibFile.name = ps ∧
      ((readFileIndex file).map lemlibFile.name).Nodup := by
  obtain ⟨f, hr, hn⟩ := runCreates_names ps [] h1 h2
    (by intro p hp e he; simp [readFileIndex] at he)
  have hn' : (readFileIndex f).map lemlibFile.name = ps := by
    simpa [readFileIndex] using hn
  refine ⟨f, hr, hn', ?_⟩
  rw [hn']
  exact h2

/-- C5 witness: creating /a then /b from the empty index yields an
index file whose parsed paths are exactly ["/a", "/b"]. -/
theorem createFile_round_trip_witness :
    ∃ file, runOps (["/a", "/b"].map VfsOp.create) [] = some file ∧
      (readFileIndex file).map lemlibFile.name = ["/a", "/b"] ∧
      ((readFileIndex file).map lemlibFile.name).Nodup :=
  createFile_round_trip ["/a", "/b"] (by decide) (by decide)
